import Mathlib

/-!
Shallow embedding of the ring-signature package `crypto/ring/ring.go`
(`GenNewKeyRing`, `Sign`, `Verify`) and proofs of the specification claims.

Modelling conventions:
* `big.Int` values are `Nat` (all challenges and decoy responses are
  non-negative) except for the signer response, which `Sign` computes with
  `big.Int.Sub` and which can leave `[0, ∞)`; response slots hold `Int`.
* `big.Int.Bytes` (big-endian, no leading zeros, absolute value) is
  `bytesOf`; for an `Int` the code takes `bytesOf ·.natAbs`.
* `elliptic.Curve` is a record of the operations the code calls, plus the
  parameters `P` (field prime) and `N` (group order); concrete instances
  are supplied for evaluation.
* `sha3.Sum256` followed by `big.Int.SetBytes` is an arbitrary function
  `Hh : List Nat → Nat` applied to the concatenated message/point bytes.
* A Go pointer `*ecdsa.PublicKey` is a `PublicKey` value carrying an
  `addr` field; Go pointer equality (`ring[s] != pubkey`) is equality of
  `addr`.  `privkey.Public()` always yields the same address.
* `crypto/rand.Reader` is a tape `List Nat`; `rand.Int(reader, bound)`
  consumes one tape value `v` and returns `v % bound`, and fails
  (the `err != nil` branch) exactly when the tape is exhausted.
* Go slices of pointers start as `nil` entries: slots are `Option` values,
  and dereferencing a `nil` entry (a Go panic) surfaces as an explicit
  `nilDeref` error / `none` result.
-/

/-- Big-endian byte representation of a natural number, structural fuel
version so that it reduces by `rfl` (fuel `n` suffices since `n / 256 < n`
for `n > 0`). Mirrors `big.Int.Bytes`: no leading zeros, `0 ↦ []`. -/
def bytesOfAux : Nat → Nat → List Nat
  | 0, _ => []
  | fuel + 1, n => if n = 0 then [] else bytesOfAux fuel (n / 256) ++ [n % 256]

/-- `bytesOf n` is `big.Int.Bytes` of `n`. -/
def bytesOf (n : Nat) : List Nat :=
  bytesOfAux n n

/-- Big-endian evaluation of a byte list, used by concrete curve models to
read a scalar argument (Go curve implementations interpret the `k []byte`
argument of `ScalarMult`/`ScalarBaseMult` big-endian). -/
def fromBytes (l : List Nat) : Nat :=
  l.foldl (fun a b => 256 * a + b) 0

/-- The `elliptic.Curve` interface as used by `ring.go`: parameters `P`
(field prime) and `N` (group order) from `Params()`, plus the three group
operations the code calls.  Scalar arguments are byte strings, point
coordinates are naturals. -/
structure Curve where
  P : Nat
  N : Nat
  scalarBaseMult : List Nat → Nat × Nat
  scalarMult : Nat → Nat → List Nat → Nat × Nat
  add : Nat → Nat → Nat → Nat → Nat × Nat

/-- `ecdsa.PublicKey` (always handled through a pointer in the source):
curve, coordinates, and the pointer address `addr`. -/
structure PublicKey where
  addr : Nat
  curve : Curve
  X : Nat
  Y : Nat

/-- `ecdsa.PrivateKey`: the embedded public key (whose address is what
`privkey.Public()` returns) and the private scalar `D`. -/
structure PrivateKey where
  pub : PublicKey
  D : Nat

/-- Default curve (used only as a `getD` fallback; never reached in the
proofs, which always index within bounds). -/
def dCurve : Curve :=
  { P := 1, N := 1
    scalarBaseMult := fun _ => (0, 0)
    scalarMult := fun _ _ _ => (0, 0)
    add := fun _ _ _ _ => (0, 0) }

/-- Default public key, `getD` fallback only. -/
def dPK : PublicKey :=
  { addr := 0, curve := dCurve, X := 0, Y := 0 }

/-- Error taxonomy of `Sign` (the source uses `errors.New` strings; the
names follow the spec).  `nilDeref` stands for a Go nil-pointer panic and
is unreachable on the paths the theorems traverse. -/
inductive SignError
  | invalidRingSize
  | indexOutOfRange
  | signerMismatch
  | randomGenerationFailure
  | ringClosureError
  | nilDeref
deriving DecidableEq

/-- The `RingSign` struct.  `C` is an `Option` because Go would store a
nil `*big.Int` unchanged. -/
structure RingSign where
  Size : Nat
  M : List Nat
  C : Option Nat
  S : List (Option Int)
  Ring : List PublicKey
  Curve : Curve

/-- Default `RingSign`, used only to name the result of a successful
`Sign` call in closed witness statements. -/
def dSig : RingSign :=
  { Size := 0, M := [], C := none, S := [], Ring := [], Curve := dCurve }

/-- Extract the payload of a successful `Except` computation (used to name
concrete signatures in closed statements). -/
def exOk (x : Except SignError RingSign) (d : RingSign) : RingSign :=
  match x with
  | .ok s => s
  | .error _ => d

/-- The repeated point computation of `ring.go`:
`s·G + c·pk` where the challenge scalar is passed as `c.Bytes()` and the
response scalar is already a byte string `sb`.  Mirrors the three lines
`px, py := curve.ScalarMult(...); sx, sy := curve.ScalarBaseMult(...);
tx, ty := curve.Add(sx, sy, px, py)`. -/
def ringPt (cv : Curve) (pk : PublicKey) (c : Nat) (sb : List Nat) : Nat × Nat :=
  let p := cv.scalarMult pk.X pk.Y (bytesOf c)
  let sq := cv.scalarBaseMult sb
  cv.add sq.1 sq.2 p.1 p.2

/-- One challenge-chain step: hash of message bytes followed by the
serialized point, `sha3.Sum256(append(m, append(tx.Bytes(), ty.Bytes()...)...))`
read back as an integer. -/
def partStep (cv : Curve) (Hh : List Nat → Nat) (m : List Nat) (pk : PublicKey)
    (c : Nat) (sb : List Nat) : Nat :=
  Hh (m ++ bytesOf (ringPt cv pk c sb).1 ++ bytesOf (ringPt cv pk c sb).2)

/-- The decoy loop of `Sign` (`for i := 1; i < ringsize; i++`), fuel
structured: called with fuel `ringsize - 1` and `i = 1`.  Each iteration
draws `s_i = rand.Int(reader, P)`, stores it in `S[idx]`, reads the
challenge `C[idx]`, computes the next challenge and stores it in `C[s]`
on the last iteration and in `C[(idx+1) % ringsize]` otherwise. -/
def signLoop (cv : Curve) (Hh : List Nat → Nat) (m : List Nat)
    (ring : List PublicKey) (n s : Nat) :
    Nat → Nat → List (Option Nat) → List (Option Int) → List Nat →
    Except SignError (List (Option Nat) × List (Option Int))
  | 0, _, C, S, _ => .ok (C, S)
  | k + 1, i, C, S, tape =>
    let idx := (s + i) % n
    match tape with
    | [] => .error .randomGenerationFailure
    | v :: tape1 =>
      let s_i := v % cv.P
      let S1 := S.set idx (some (Int.ofNat s_i))
      match C.getD idx none with
      | none => .error .nilDeref
      | some cidx =>
        let c1 := partStep cv Hh m (ring.getD idx dPK) cidx (bytesOf s_i)
        let C1 := if i = n - 1 then C.set s (some c1) else C.set ((idx + 1) % n) (some c1)
        signLoop cv Hh m ring n s k (i + 1) C1 S1 tape1

/-- `Sign` from `ring.go`.  `Hh` abstracts `sha3.Sum256 ∘ SetBytes`,
`tape` is the secure random source. -/
def Sign (Hh : List Nat → Nat) (m : List Nat) (ring : List PublicKey)
    (privkey : PrivateKey) (s : Int) (tape : List Nat) :
    Except SignError RingSign :=
  let ringsize := ring.length
  if ringsize < 2 then .error .invalidRingSize
  else if (ringsize : Int) ≤ s ∨ s < 0 then .error .indexOutOfRange
  else
    let pubkey := privkey.pub
    let cv := pubkey.curve
    let sN := s.toNat
    if (ring.getD sN dPK).addr ≠ pubkey.addr then .error .signerMismatch
    else
      match tape with
      | [] => .error .randomGenerationFailure
      | v :: tape1 =>
        let u := v % cv.P
        let uxy := cv.scalarBaseMult (bytesOf u)
        let cInit := Hh (m ++ bytesOf uxy.1 ++ bytesOf uxy.2)
        let idx1 := (sN + 1) % ringsize
        let C0 := (List.replicate ringsize (none : Option Nat)).set idx1 (some cInit)
        let S0 := List.replicate ringsize (none : Option Int)
        match signLoop cv Hh m ring ringsize sN (ringsize - 1) 1 C0 S0 tape1 with
        | .error e => .error e
        | .ok CS =>
          match CS.1.getD sN none with
          | none => .error .nilDeref
          | some cs =>
            let ss : Int := (u : Int) - ((cs * privkey.D) % cv.N : Nat)
            let S2 := CS.2.set sN (some ss)
            let rs := ring.getD sN dPK
            let t := ringPt cv rs cs (bytesOf ss.natAbs)
            match CS.1.getD idx1 none with
            | none => .error .nilDeref
            | some cs1 =>
              if t.1 ≠ uxy.1 ∨ t.2 ≠ uxy.2 ∨ cs1 ≠ partStep cv Hh m rs cs (bytesOf ss.natAbs)
              then .error .ringClosureError
              else
                .ok { Size := ringsize, M := m, C := CS.1.getD 0 none, S := S2,
                      Ring := ring, Curve := cv }

/-- The verification loop of `Verify` (`for i := 0; i < ringsize; i++`),
fuel structured with fuel `ringsize` from `i = 0`.  The challenge array is
written at `i+1` (or back at `0` on the last iteration) and read only at
the position written by the previous iteration, so the loop is the carried
chain of challenges; a missing ring entry or response (out-of-range index
or nil pointer, a Go panic) yields `none`. -/
def verifyLoop (cv : Curve) (Hh : List Nat → Nat) (m : List Nat)
    (ring : List PublicKey) (S : List (Option Int)) :
    Nat → Nat → Nat → Option Nat
  | 0, _, c => some c
  | k + 1, i, c =>
    match ring.get? i, S.get? i with
    | some pki, some (some si) =>
      verifyLoop cv Hh m ring S k (i + 1) (partStep cv Hh m pki c (bytesOf si.natAbs))
    | _, _ => none

/-- `Verify` from `ring.go`.  Returns `none` where Go panics (ring size
zero, empty ring, nil challenge or response); the final comparison is
`bytes.Equal(sig.C.Bytes(), C[0].Bytes())`, i.e. equality of the
non-negative challenge values. -/
def Verify (Hh : List Nat → Nat) (sig : RingSign) : Option Bool :=
  if sig.Size = 0 then none
  else
    match sig.Ring.get? 0 with
    | none => none
    | some pk0 =>
      match sig.C with
      | none => none
      | some c0 =>
        match verifyLoop pk0.curve Hh sig.M sig.Ring sig.S sig.Size 0 c0 with
        | none => none
        | some cfin => some (c0 == cfin)

/-- Outcome of a Go function that can panic: `crash` is a runtime panic
(index out of range), `ret` a normal return. -/
inductive GoResult (α : Type) where
  | crash
  | ret (a : α)
deriving DecidableEq

/-- Public key produced by `crypto.GenerateKey` for private scalar `d`
with object address `a`: the point `d·G`. -/
def pubMk (cv : Curve) (a d : Nat) : PublicKey :=
  { addr := a, curve := cv
    X := (cv.scalarBaseMult (bytesOf d)).1
    Y := (cv.scalarBaseMult (bytesOf d)).2 }

/-- `crypto.GenerateKey`: draws one tape value as the private scalar and
returns the fresh key object (with a fresh address), failing when the tape
is exhausted.  State is (next fresh address, tape). -/
def GenerateKey (cv : Curve) (st : Nat × List Nat) :
    Option (PrivateKey × (Nat × List Nat)) :=
  match st.2 with
  | [] => none
  | v :: rest =>
    let d := v % cv.N
    some ({ pub := pubMk cv st.1 d, D := d }, (st.1 + 1, rest))

/-- The decoy-generation loop of `GenNewKeyRing`
(`for i := 1; i < size; i++`), fuel structured with fuel `size - 1` from
`i = 1`: generates a fresh key pair and stores its public key at
`(i + s) % size`, returning `nil` (`ret none`) if generation fails. -/
def genLoop (cv : Curve) (size s : Nat) :
    Nat → Nat → List (Option PublicKey) → Nat × List Nat →
    GoResult (Option (List (Option PublicKey)))
  | 0, _, ring, _ => .ret (some ring)
  | k + 1, i, ring, st =>
    let idx := (i + s) % size
    match GenerateKey cv st with
    | none => .ret none
    | some (priv, st1) => genLoop cv size s k (i + 1) (ring.set idx (some priv.pub)) st1

/-- `GenNewKeyRing` from `ring.go`: allocates a slice of `size` nil
entries, stores the public key object of the signer at index `s` (a panic —
`crash` — when `s ≥ size`, including the `size = 0` case), then fills
every other slot with a freshly generated public key. -/
def GenNewKeyRing (cv : Curve) (size : Nat) (privkey : PrivateKey) (s : Nat)
    (st : Nat × List Nat) : GoResult (Option (List (Option PublicKey))) :=
  if s < size then
    genLoop cv size s (size - 1) 1
      ((List.replicate size (none : Option PublicKey)).set s (some privkey.pub)) st
  else .crash

/-- Structural well-formedness of a `RingSign` as consumed by `Verify`:
matching lengths, a populated challenge, populated responses, and a
non-empty ring (so that `ring[0]` and `C[0]` exist). -/
def WellFormed (sig : RingSign) : Prop :=
  sig.Size = sig.Ring.length ∧ sig.Size = sig.S.length ∧ 0 < sig.Size ∧
  sig.C.isSome = true ∧ ∀ j, j < sig.Size → (sig.S.getD j none).isSome = true
/-- A concrete instance of the `Curve` interface used for evaluation: the
additive group of integers modulo `q` presented as "points" `(a, 0)`,
with group order `N = q` and an (unrelated) field parameter `P = p`.
`ScalarBaseMult k = (k mod q, 0)`, `ScalarMult (x,_) k = (k·x mod q, 0)`,
`Add (x1,_) (x2,_) = (x1+x2 mod q, 0)`. -/
def zmodCurve (q p : Nat) : Curve :=
  { P := p, N := q
    scalarBaseMult := fun k => (fromBytes k % q, 0)
    scalarMult := fun x _ k => (fromBytes k * x % q, 0)
    add := fun x1 _ x2 _ => ((x1 + x2) % q, 0) }

/-- Concrete hash for evaluation. -/
def H0 : List Nat → Nat := fun l => l.foldl (fun a b => 3 * a + 2 * b + 1) 0 % 97

/-- Toy curve A: group order 5, field parameter 11. -/
def cA : Curve := zmodCurve 5 11

/-- Toy curve B, distinct from `cA`. -/
def cB : Curve := zmodCurve 7 13

/-- Signer key on `cA`: private scalar 3, public point (3, 0), address 1. -/
def pkS : PrivateKey := { pub := { addr := 1, curve := cA, X := 3, Y := 0 }, D := 3 }

/-- Decoy ring member on `cA`, address 2. -/
def pkOther : PublicKey := { addr := 2, curve := cA, X := 2, Y := 0 }

/-- Ring member carrying curve `cB`, address 3. -/
def pkOtherB : PublicKey := { addr := 3, curve := cB, X := 2, Y := 0 }

/-- Independently constructed copy of the signer public key: same curve
and coordinates as `pkS.pub`, different address (a distinct Go object). -/
def pkClone : PublicKey := { addr := 99, curve := cA, X := 3, Y := 0 }

def m0 : List Nat := [42]
def ring0 : List PublicKey := [pkS.pub, pkOther]
def ring1 : List PublicKey := [pkOtherB, pkS.pub]
def ringClone : List PublicKey := [pkOther, pkClone]
def tape0 : List Nat := [9, 7]

/-- Well-formed hand-made signature used to exercise `Verify` totality. -/
def sigW5 : RingSign :=
  { Size := 1, M := [], C := some 3, S := [some 2], Ring := [pkOther], Curve := cA }

/-- Signature used to exercise curve-field independence of `Verify`. -/
def sigW10a : RingSign :=
  { Size := 1, M := [1], C := some 2, S := [some 3], Ring := [pkOther], Curve := cA }

/-- Same as `sigW10a` in every field except the curve descriptor. -/
def sigW10b : RingSign :=
  { Size := 1, M := [1], C := some 2, S := [some 3], Ring := [pkOther], Curve := cB }

/-! ### List and modular-arithmetic helpers -/

theorem getD_set_ne {α : Type} (l : List α) (i j : Nat) (a d : α) (h : i ≠ j) :
    (l.set i a).getD j d = l.getD j d := by
  induction l generalizing i j with
  | nil => rfl
  | cons x xs ih =>
    cases i with
    | zero =>
      cases j with
      | zero => exact absurd rfl h
      | succ j => simp [List.set]
    | succ i =>
      cases j with
      | zero => simp [List.set]
      | succ j =>
        simp only [List.set, List.getD_cons_succ]
        exact ih i j (fun he => h (by rw [he]))

theorem getD_set_self {α : Type} (l : List α) (i : Nat) (a d : α) (h : i < l.length) :
    (l.set i a).getD i d = a := by
  induction l generalizing i with
  | nil => simp at h
  | cons x xs ih =>
    cases i with
    | zero => rfl
    | succ i =>
      simp only [List.set, List.getD_cons_succ]
      exact ih i (by simpa using h)

theorem get?_eq_some_getD {α : Type} (l : List α) (i : Nat) (d : α) (h : i < l.length) :
    l.get? i = some (l.getD i d) := by
  induction l generalizing i with
  | nil => simp at h
  | cons x xs ih =>
    cases i with
    | zero => rfl
    | succ i =>
      simp only [List.get?, List.getD_cons_succ]
      exact ih i (by simpa using h)

/-- Cancel a common left shift under `% n`. -/
theorem shift_mod_cancel (n s a b : Nat) (h : (s + a) % n = (s + b) % n) :
    a % n = b % n :=
  Nat.ModEq.add_left_cancel' s h

/-- Two distinct in-range offsets from `s` land on distinct ring positions. -/
theorem shift_mod_ne (n s a b : Nat) (ha : a < n) (hb : b < n) (hab : a ≠ b) :
    (s + a) % n ≠ (s + b) % n := by
  intro h
  have := shift_mod_cancel n s a b h
  rw [Nat.mod_eq_of_lt ha, Nat.mod_eq_of_lt hb] at this
  exact hab this

/-- Offset `n` wraps back onto offset `0`. -/
theorem shift_mod_wrap (n s : Nat) (hs : s < n) : (s + n) % n = s := by
  rw [Nat.add_mod_right]
  exact Nat.mod_eq_of_lt hs

/-- Distinctness of ring positions for offsets up to `n` (offset `n`
wrapping onto offset `0`). -/
theorem shift_mod_ne_le (n s a b : Nat) (hs : s < n) (ha : a ≤ n) (hb : b ≤ n)
    (hab : a ≠ b) (h0 : ¬(a = 0 ∧ b = n)) (h1 : ¬(a = n ∧ b = 0)) :
    (s + a) % n ≠ (s + b) % n := by
  intro he
  have hc := shift_mod_cancel n s a b he
  rcases Nat.lt_or_ge a n with halt | hage
  · rcases Nat.lt_or_ge b n with hblt | hbge
    · rw [Nat.mod_eq_of_lt halt, Nat.mod_eq_of_lt hblt] at hc
      exact hab hc
    · have hbn : b = n := by omega
      rw [Nat.mod_eq_of_lt halt, hbn, Nat.mod_self] at hc
      exact h0 ⟨hc, hbn⟩
  · have han : a = n := by omega
    rcases Nat.lt_or_ge b n with hblt | hbge
    · rw [han, Nat.mod_self, Nat.mod_eq_of_lt hblt] at hc
      exact h1 ⟨han, hc.symm⟩
    · omega

/-- Invariant of the decoy loop of `Sign`, for a successful run from
iteration `i` with `i + k = n`:
the arrays keep their length; challenge positions other than
`(s+t+1) % n` for the remaining iterations `t`, and response positions
other than `(s+t) % n`, are untouched; and every remaining iteration `t`
leaves a populated challenge at its position, a populated non-negative
response, and the challenge at the next position equal to the chain step
of the challenge at its own position. -/
theorem signLoop_ok_spec (cv : Curve) (Hh : List Nat → Nat) (m : List Nat)
    (ring : List PublicKey) (n s : Nat) (hs : s < n) :
    ∀ k i C S tape Cf Sf,
      signLoop cv Hh m ring n s k i C S tape = .ok (Cf, Sf) →
      1 ≤ i → i + k = n → C.length = n → S.length = n →
      Cf.length = n ∧ Sf.length = n ∧
      (∀ j, (∀ t, i ≤ t → t < n → j ≠ (s + t + 1) % n) →
        Cf.getD j none = C.getD j none) ∧
      (∀ j, (∀ t, i ≤ t → t < n → j ≠ (s + t) % n) →
        Sf.getD j none = S.getD j none) ∧
      (∀ t, i ≤ t → t < n →
        ∃ c σ, Cf.getD ((s + t) % n) none = some c ∧
          Sf.getD ((s + t) % n) none = some (Int.ofNat σ) ∧
          Cf.getD ((s + t + 1) % n) none =
            some (partStep cv Hh m (ring.getD ((s + t) % n) dPK) c (bytesOf σ))) := by
  intro k
  induction k with
  | zero =>
    intro i C S tape Cf Sf hok h1 hin hC hS
    simp only [signLoop] at hok
    simp only [Except.ok.injEq, Prod.mk.injEq] at hok
    obtain ⟨rfl, rfl⟩ := hok
    refine ⟨hC, hS, fun j _ => rfl, fun j _ => rfl, fun t ht htn => ?_⟩
    omega
  | succ k IH =>
    intro i C S tape Cf Sf hok h1 hin hC hS
    have hn : 0 < n := by omega
    have hiltn : i < n := by omega
    simp only [signLoop] at hok
    cases tape with
    | nil => exact Except.noConfusion hok
    | cons v tape1 =>
      simp only at hok
      rcases hread : C.getD ((s + i) % n) none with _ | cidx
      · rw [hread] at hok
        exact Except.noConfusion hok
      · rw [hread] at hok
        simp only at hok
        -- collapse the two write branches into one position
        have hC1 :
            (if i = n - 1 then
              C.set s (some (partStep cv Hh m (ring.getD ((s + i) % n) dPK) cidx
                (bytesOf (v % cv.P))))
            else
              C.set (((s + i) % n + 1) % n) (some (partStep cv Hh m
                (ring.getD ((s + i) % n) dPK) cidx (bytesOf (v % cv.P))))) =
            C.set ((s + i + 1) % n) (some (partStep cv Hh m
              (ring.getD ((s + i) % n) dPK) cidx (bytesOf (v % cv.P)))) := by
        
          by_cases hi : i = n - 1
          · rw [if_pos hi]
            have : (s + i + 1) % n = s := by
              have h1 : s + i + 1 = s + n := by omega
              rw [h1, shift_mod_wrap n s hs]
            rw [this]
          · rw [if_neg hi]
            have : ((s + i) % n + 1) % n = (s + i + 1) % n := Nat.mod_add_mod (s + i) n 1
            rw [this]
      
        rw [hC1] at hok
        obtain ⟨hCfLen, hSfLen, frameC, frameS, chain⟩ :=
          IH (i + 1)
            (C.set ((s + i + 1) % n) (some (partStep cv Hh m
              (ring.getD ((s + i) % n) dPK) cidx (bytesOf (v % cv.P)))))
            (S.set ((s + i) % n) (some (Int.ofNat (v % cv.P))))
            tape1 Cf Sf hok (by omega) (by omega)
            (by rw [List.length_set]; exact hC)
            (by rw [List.length_set]; exact hS)
        refine ⟨hCfLen, hSfLen, ?_, ?_, ?_⟩
        · -- challenge frame
          intro j hj
          have h2 : Cf.getD j none =
              (C.set ((s + i + 1) % n) _).getD j none :=
            frameC j (fun t ht htn => hj t (by omega) htn)
          rw [h2, getD_set_ne _ _ _ _ _ (fun he => (hj i (Nat.le_refl i) hiltn) he.symm)]
        · -- response frame
          intro j hj
          have h2 : Sf.getD j none =
              (S.set ((s + i) % n) _).getD j none :=
            frameS j (fun t ht htn => hj t (by omega) htn)
          rw [h2, getD_set_ne _ _ _ _ _ (fun he => (hj i (Nat.le_refl i) hiltn) he.symm)]
        · -- chain
          intro t ht htn
          rcases Nat.lt_or_ge i t with hti | hti
          · exact chain t (by omega) htn
          · have hteq : t = i := by omega
            subst hteq
            refine ⟨cidx, v % cv.P, ?_, ?_, ?_⟩
            · -- challenge at the current position is untouched afterwards
              have h2 : Cf.getD ((s + t) % n) none =
                  (C.set ((s + t + 1) % n) (some (partStep cv Hh m (ring.getD ((s + t) % n) dPK) cidx (bytesOf (v % cv.P))))).getD ((s + t) % n) none := by
                apply frameC
                intro t2 ht2 ht2n he
                exact shift_mod_ne_le n s t (t2 + 1) hs (by omega) (by omega)
                  (by omega) (by omega) (by omega) he
              rw [h2, getD_set_ne, hread]
              exact shift_mod_ne_le n s (t + 1) t hs (by omega) (by omega)
                (by omega) (by omega) (by omega)
            · -- response at the current position survives the later iterations
              have h2 : Sf.getD ((s + t) % n) none =
                  (S.set ((s + t) % n) (some (Int.ofNat (v % cv.P)))).getD ((s + t) % n) none := by
                apply frameS
                intro t2 ht2 ht2n
                exact shift_mod_ne n s t t2 htn ht2n (by omega)
              rw [h2, getD_set_self]
              rw [hS]
              exact Nat.mod_lt _ hn
            · -- the written next challenge survives the later iterations
              have h2 : Cf.getD ((s + t + 1) % n) none =
                  (C.set ((s + t + 1) % n) (some (partStep cv Hh m (ring.getD ((s + t) % n) dPK) cidx (bytesOf (v % cv.P))))).getD ((s + t + 1) % n) none := by
                apply frameC
                intro t2 ht2 ht2n he
                exact shift_mod_ne_le n s (t + 1) (t2 + 1) hs (by omega) (by omega)
                  (by omega) (by omega) (by omega) he
              rw [h2, getD_set_self]
              rw [hC]
              exact Nat.mod_lt _ hn

/-- Everything a successful `Sign` run guarantees: sizes, field equalities,
and a challenge assignment `cmap` such that the emitted initial challenge
is `cmap 0` and every ring position satisfies the chain-step equation with
the emitted responses. -/
theorem sign_ok_master (Hh : List Nat → Nat) (m : List Nat) (ring : List PublicKey)
    (pk : PrivateKey) (s : Int) (tape : List Nat) (sig : RingSign)
    (hok : Sign Hh m ring pk s tape = .ok sig) :
    2 ≤ ring.length ∧ sig.Size = ring.length ∧ sig.M = m ∧ sig.Ring = ring ∧
    sig.S.length = ring.length ∧ sig.Curve = pk.pub.curve ∧
    ∃ cmap : Nat → Nat, sig.C = some (cmap 0) ∧
      ∀ j, j < ring.length → ∃ si : Int, sig.S.getD j none = some si ∧
        partStep pk.pub.curve Hh m (ring.getD j dPK) (cmap j) (bytesOf si.natAbs) =
          cmap ((j + 1) % ring.length) := by
  simp only [Sign] at hok
  split at hok
  · exact Except.noConfusion hok
  next hlt2 =>
    split at hok
    · exact Except.noConfusion hok
    next hidx =>
      split at hok
      · exact Except.noConfusion hok
      next haddr =>
        split at hok
        · exact Except.noConfusion hok
        next v tape1 =>
          split at hok
          · exact Except.noConfusion hok
          next CS hloop =>
            split at hok
            · exact Except.noConfusion hok
            next cs hcs =>
              split at hok
              · exact Except.noConfusion hok
              next cs1 hcs1 =>
                split at hok
                · exact Except.noConfusion hok
                next hclose =>
                  injection hok with hrec
                  subst hrec
                  -- abbreviations
                  have hn2 : 2 ≤ ring.length := by omega
                  have hn : 0 < ring.length := by omega
                  have hsn : s.toNat < ring.length := by omega
                  obtain ⟨hCfLen, hSfLen, _frameC, _frameS, chain⟩ :=
                    signLoop_ok_spec pk.pub.curve Hh m ring ring.length s.toNat hsn
                      (ring.length - 1) 1 _ _ tape1 CS.1 CS.2 hloop
                      (Nat.le_refl 1) (by omega)
                      (by rw [List.length_set, List.length_replicate])
                      (by rw [List.length_replicate])
                  -- coverage of the challenge array
                  have hrep : ∀ j, j < ring.length → j ≠ s.toNat →
                      ∃ t, 1 ≤ t ∧ t < ring.length ∧
                        (s.toNat + t) % ring.length = j := by
                    intro j hj hjs
                    refine ⟨(j + ring.length - s.toNat) % ring.length, ?_, Nat.mod_lt _ hn, ?_⟩
                    · rcases Nat.eq_zero_or_pos ((j + ring.length - s.toNat) % ring.length)
                        with h0 | h0
                      · exfalso
                        have h1 : (s.toNat + (j + ring.length - s.toNat) % ring.length) %
                            ring.length = j := by
                          rw [Nat.add_mod_mod]
                          have h2 : s.toNat + (j + ring.length - s.toNat) =
                              j + ring.length := by omega
                          rw [h2, Nat.add_mod_right, Nat.mod_eq_of_lt hj]
                        rw [h0, Nat.add_zero, Nat.mod_eq_of_lt hsn] at h1
                        exact hjs h1.symm
                      · exact h0
                    · rw [Nat.add_mod_mod]
                      have h2 : s.toNat + (j + ring.length - s.toNat) =
                          j + ring.length := by omega
                      rw [h2, Nat.add_mod_right, Nat.mod_eq_of_lt hj]
                  have hcov : ∀ j, j < ring.length →
                      ∃ c, CS.1.getD j none = some c := by
                    intro j hj
                    by_cases hjs : j = s.toNat
                    · exact ⟨cs, by rw [hjs]; exact hcs⟩
                    · obtain ⟨t, ht1, htn, heq⟩ := hrep j hj hjs
                      obtain ⟨c, σ, hc, _, _⟩ := chain t ht1 htn
                      exact ⟨c, by rw [← heq]; exact hc⟩
                  refine ⟨hn2, rfl, rfl, rfl, ?_, rfl,
                    fun j => (CS.1.getD j none).getD 0, ?_, ?_⟩
                  · -- length of the emitted responses
                    show (CS.2.set s.toNat _).length = ring.length
                    rw [List.length_set]; exact hSfLen
                  · -- emitted initial challenge
                    obtain ⟨c0, hc0⟩ := hcov 0 hn
                    show CS.1.getD 0 none = some ((CS.1.getD 0 none).getD 0)
                    rw [hc0]; rfl
                  · -- chain-step equation at every position
                    intro j hj
                    by_cases hjs : j = s.toNat
                    · -- signer position: the closure check ties the step to cs1
                      push_neg at hclose
                      obtain ⟨_, _, hcl3⟩ := hclose
                      subst hjs
                      refine ⟨((v % pk.pub.curve.P : Nat) : Int) -
                        ((cs * pk.D % pk.pub.curve.N : Nat) : Int), ?_, ?_⟩
                      · show (CS.2.set s.toNat _).getD s.toNat none = _
                        rw [getD_set_self _ _ _ _ (by rw [hSfLen]; exact hj)]
                      · simp only [hcs, hcs1, Option.getD_some]
                        exact hcl3.symm
                    · -- decoy position: the loop invariant gives the step
                      obtain ⟨t, ht1, htn, heq⟩ := hrep j hj hjs
                      obtain ⟨c, σ, hc, hσ, hnext⟩ := chain t ht1 htn
                      rw [heq] at hc hσ hnext
                      have hnx : (s.toNat + t + 1) % ring.length =
                          (j + 1) % ring.length := by
                        rw [← Nat.mod_add_mod (s.toNat + t) ring.length 1, heq]
                      rw [hnx] at hnext
                      refine ⟨Int.ofNat σ, ?_, ?_⟩
                      · show (CS.2.set s.toNat _).getD j none = _
                        rw [getD_set_ne _ _ _ _ _ (fun he => hjs he.symm)]
                        exact hσ
                      · simp only [hc, hnext, Option.getD_some]
                        rfl

/-- Running the verification loop along a challenge assignment that
satisfies the chain-step equation at every position returns the challenge
at position `0`. -/
theorem verifyLoop_eval (cv : Curve) (Hh : List Nat → Nat) (m : List Nat)
    (ring : List PublicKey) (S : List (Option Int)) (n : Nat) (cmap : Nat → Nat)
    (hr : ring.length = n) (hsl : S.length = n)
    (hchain : ∀ j, j < n → ∃ si : Int, S.getD j none = some si ∧
      partStep cv Hh m (ring.getD j dPK) (cmap j) (bytesOf si.natAbs) =
        cmap ((j + 1) % n)) :
    ∀ k i, i + k = n → verifyLoop cv Hh m ring S k i (cmap (i % n)) = some (cmap 0) := by
  intro k
  induction k with
  | zero =>
    intro i hi
    have h0 : i % n = 0 := by
      have : i = n := by omega
      rw [this, Nat.mod_self]
    rw [h0]
    rfl
  | succ k IH =>
    intro i hi
    have hin : i < n := by omega
    have hget : ring.get? i = some (ring.getD i dPK) :=
      get?_eq_some_getD ring i dPK (by omega)
    obtain ⟨si, hsi, hstep⟩ := hchain i hin
    have hS2 : S.get? i = some (some si) := by
      have h := get?_eq_some_getD S i none (by omega)
      rw [hsi] at h
      exact h
    rw [Nat.mod_eq_of_lt hin]
    simp only [verifyLoop, hget, hS2]
    rw [hstep]
    exact IH (i + 1) (by omega)

/-- The verification loop always produces a value when the ring and the
responses cover every index it visits. -/
theorem verifyLoop_total (cv : Curve) (Hh : List Nat → Nat) (m : List Nat)
    (ring : List PublicKey) (S : List (Option Int)) (n : Nat)
    (hr : ring.length = n) (hsl : S.length = n)
    (hpop : ∀ j, j < n → (S.getD j none).isSome = true) :
    ∀ k i c, i + k = n → ∃ cf, verifyLoop cv Hh m ring S k i c = some cf := by
  intro k
  induction k with
  | zero => exact fun i c _ => ⟨c, rfl⟩
  | succ k IH =>
    intro i c hi
    have hin : i < n := by omega
    have hget : ring.get? i = some (ring.getD i dPK) :=
      get?_eq_some_getD ring i dPK (by omega)
    obtain ⟨si, hsi⟩ : ∃ si : Int, S.getD i none = some si := by
      have := hpop i hin
      cases h : S.getD i none with
      | none => rw [h] at this; exact absurd this (by simp)
      | some si => exact ⟨si, rfl⟩
    have hS2 : S.get? i = some (some si) := by
      have h := get?_eq_some_getD S i none (by omega)
      rw [hsi] at h
      exact h
    simp only [verifyLoop, hget, hS2]
    exact IH (i + 1) _ (by omega)

/-- If the random source is exhausted before the decoy loop finishes,
the loop of `GenNewKeyRing` returns `nil` (`ret none`). -/
theorem genLoop_none (cv : Curve) (size s : Nat) :
    ∀ k i ringArr a tape, tape.length < k →
      genLoop cv size s k i ringArr (a, tape) = .ret none := by
  intro k
  induction k with
  | zero => intro i ringArr a tape h; omega
  | succ k IH =>
    intro i ringArr a tape hlen
    cases tape with
    | nil => rfl
    | cons v rest =>
      simp only [genLoop, GenerateKey]
      exact IH (i + 1) _ (a + 1) rest (by simpa using hlen)

/-- Successful run of the decoy loop of `GenNewKeyRing`: the array keeps its
length, position `(t+s) % size` for each remaining iteration `t` receives
the public key freshly generated from tape element `t - i` with object
address `a + (t - i)`, and every other position is untouched. -/
theorem genLoop_spec (cv : Curve) (size s : Nat) (hs : s < size) :
    ∀ k i ringArr a tape, i + k = size → 1 ≤ i → ringArr.length = size →
      k ≤ tape.length →
      ∃ R, genLoop cv size s k i ringArr (a, tape) = .ret (some R) ∧
        R.length = size ∧
        (∀ j, (∀ t, i ≤ t → t < size → j ≠ (t + s) % size) →
          R.getD j none = ringArr.getD j none) ∧
        (∀ t, i ≤ t → t < size →
          R.getD ((t + s) % size) none =
            some (pubMk cv (a + (t - i)) (tape.getD (t - i) 0 % cv.N))) := by
  intro k
  induction k with
  | zero =>
    intro i ringArr a tape hi h1 hlen _
    exact ⟨ringArr, rfl, hlen, fun j _ => rfl, fun t ht htn => by omega⟩
  | succ k IH =>
    intro i ringArr a tape hi h1 hlen htape
    have hsz : 0 < size := by omega
    cases tape with
    | nil => simp at htape
    | cons v rest =>
      simp only [genLoop, GenerateKey]
      obtain ⟨R, hR, hRlen, frameR, covR⟩ :=
        IH (i + 1) (ringArr.set ((i + s) % size) (some (pubMk cv a (v % cv.N))))
          (a + 1) rest (by omega) (by omega)
          (by rw [List.length_set]; exact hlen) (by simpa using htape)
      refine ⟨R, hR, hRlen, ?_, ?_⟩
      · intro j hj
        have h2 := frameR j (fun t ht htn => hj t (by omega) htn)
        rw [h2, getD_set_ne _ _ _ _ _ (fun he => (hj i (Nat.le_refl i) (by omega)) he.symm)]
      · intro t ht htn
        rcases Nat.lt_or_ge i t with hti | hti
        · have h2 := covR t (by omega) htn
          rw [h2]
          have ha : a + 1 + (t - (i + 1)) = a + (t - i) := by omega
          have hb : t - i = (t - (i + 1)) + 1 := by omega
          rw [ha, hb, List.getD_cons_succ]
        · have hteq : t = i := by omega
          subst hteq
          have h2 : R.getD ((t + s) % size) none =
              (ringArr.set ((t + s) % size) (some (pubMk cv a (v % cv.N)))).getD
                ((t + s) % size) none := by
            apply frameR
            intro t2 ht2 ht2n he
            rw [Nat.add_comm t s, Nat.add_comm t2 s] at he
            exact shift_mod_ne_le size s t t2 hs (by omega) (by omega)
              (by omega) (by omega) (by omega) he
          rw [h2, getD_set_self _ _ _ _ (by rw [hlen]; exact Nat.mod_lt _ hsz)]
          have hz : t - t = 0 := by omega
          rw [hz, Nat.add_zero, List.getD_cons_zero]

/-! ### Claim theorems -/

/-- Claim C1 (amended): for every ring of size `n ≥ 2`, message, tape and
valid signer, if `Sign` returns a signature and the curve recorded at
`ring[0]` (from which `Verify` takes the group operations) is the curve
of the signer, then `Verify` of that signature returns `true`: the challenge chain
recomputed from the emitted initial challenge around all `n` positions
returns to it exactly. -/
theorem ring_sign_then_verify (Hh : List Nat → Nat) (m : List Nat)
    (ring : List PublicKey) (pk : PrivateKey) (s : Int) (tape : List Nat)
    (sig : RingSign) (hok : Sign Hh m ring pk s tape = .ok sig)
    (hcv : (ring.getD 0 dPK).curve = pk.pub.curve) :
    Verify Hh sig = some true := by
  obtain ⟨hn2, hSize, hM, hRing, hSlen, _hCurve, cmap, hC, hchain⟩ :=
    sign_ok_master Hh m ring pk s tape sig hok
  have hne : ¬sig.Size = 0 := by omega
  have hg0 : sig.Ring.get? 0 = some (ring.getD 0 dPK) := by
    rw [hRing]; exact get?_eq_some_getD ring 0 dPK (by omega)
  have heval : verifyLoop (ring.getD 0 dPK).curve Hh sig.M sig.Ring sig.S
      sig.Size 0 (cmap 0) = some (cmap 0) := by
    rw [hcv, hM, hRing, hSize]
    have h := verifyLoop_eval pk.pub.curve Hh m ring sig.S ring.length cmap
      rfl hSlen hchain ring.length 0 (Nat.zero_add _)
    rwa [Nat.zero_mod] at h
  simp only [Verify, if_neg hne, hg0, hC, heval]
  simp

/-- Closed witness for C1: a concrete two-member ring on the toy curve,
signer at index 0; `Sign` succeeds and `Verify` accepts. -/
theorem ring_sign_then_verify_witness :
    Verify H0 (exOk (Sign H0 m0 ring0 pkS 0 tape0) dSig) = some true :=
  ring_sign_then_verify H0 m0 ring0 pkS 0 tape0
    (exOk (Sign H0 m0 ring0 pkS 0 tape0) dSig) rfl rfl

/-- Counterexample to C1 as stated: a ring whose member `ring[0]` records
a different curve than the signer.  `Sign` succeeds (it only uses the
curve of the signer and never inspects the curve fields of ring members) but
`Verify`, which takes its curve from `ring[0]`, rejects. -/
theorem sign_verify_mixed_curve :
    (Sign H0 m0 ring1 pkS 1 tape0).toOption.map (Verify H0) = some (some false) :=
  rfl

/-- Claim C2: the code compares `ring[s]` against the public key of the signer
with Go pointer inequality (`ring[s] != pubkey`), not by coordinates:
`ringClone` stores at index 1 an independently constructed key object
with exactly the curve and coordinates of the signer, and `Sign` still
returns `SignerMismatch`. -/
theorem sign_identity_comparison :
    ((ringClone.getD 1 dPK).X = pkS.pub.X ∧ (ringClone.getD 1 dPK).Y = pkS.pub.Y ∧
      (ringClone.getD 1 dPK).curve = pkS.pub.curve) ∧
    Sign H0 m0 ringClone pkS 1 tape0 = .error .signerMismatch :=
  ⟨⟨rfl, rfl, rfl⟩, rfl⟩

/-- Claim C3: the bound passed to the random sampler is the field prime
`P`, not the group order `N`.  On the toy curve `P = 11 ≠ 5 = N`, the
decoy response emitted at index 1 is `7`, which lies in `[0, P)` but not
in `[0, N)` — impossible had the bound been `N`. -/
theorem sign_samples_field_prime :
    cA.P ≠ cA.N ∧
    (Sign H0 m0 ring0 pkS 0 tape0).toOption.map (fun sg => sg.S.getD 1 none) =
      some (some 7) ∧
    cA.N ≤ 7 ∧ 7 < cA.P :=
  ⟨by decide, rfl, by decide, by decide⟩

/-- Claim C4: the signer response is computed as `u - ((C[s]*D) mod N)`
without reducing the difference, so the emitted `S[signerIndex]` can leave
`[0, N)`: on the toy curve the emitted signer response is `6 ∉ [0, 5)`. -/
theorem sign_response_unreduced :
    (Sign H0 m0 ring0 pkS 0 tape0).toOption.map (fun sg => sg.S.getD 0 none) =
      some (some 6) ∧
    ¬((0 : Int) ≤ 6 ∧ (6 : Int) < (cA.N : Int)) :=
  ⟨rfl, by decide⟩

/-- Claim C5: `Verify` is total on well-formed signatures — it always
returns a boolean; inconsistencies surface only as `false`. -/
theorem verify_total (Hh : List Nat → Nat) (sig : RingSign)
    (hwf : WellFormed sig) : ∃ b, Verify Hh sig = some b := by
  obtain ⟨h1, h2, h3, h4, h5⟩ := hwf
  obtain ⟨c0, hc0⟩ : ∃ c0, sig.C = some c0 := by
    cases h : sig.C with
    | none => rw [h] at h4; exact absurd h4 (by simp)
    | some c0 => exact ⟨c0, rfl⟩
  have hg0 : sig.Ring.get? 0 = some (sig.Ring.getD 0 dPK) :=
    get?_eq_some_getD _ 0 dPK (by omega)
  obtain ⟨cf, hcf⟩ := verifyLoop_total (sig.Ring.getD 0 dPK).curve Hh sig.M
    sig.Ring sig.S sig.Size h1.symm h2.symm h5 sig.Size 0 c0 (Nat.zero_add _)
  refine ⟨c0 == cf, ?_⟩
  simp only [Verify, if_neg (show ¬sig.Size = 0 by omega), hg0, hc0, hcf]

/-- Closed witness for C5 on a concrete well-formed signature. -/
theorem verify_total_witness : ∃ b, Verify H0 sigW5 = some b :=
  verify_total H0 sigW5 ⟨rfl, rfl, by decide, rfl, by decide⟩

/-- Claim C6: `Sign` validates in order with first failure winning —
`InvalidRingSize` whenever the ring has fewer than two members (whatever
the other arguments), otherwise `IndexOutOfRange` whenever the index is
outside `[0, n)`, otherwise `SignerMismatch` whenever the key object at
the signer index is not that of the signer. -/
theorem sign_validation_order (Hh : List Nat → Nat) (m : List Nat)
    (ring : List PublicKey) (pk : PrivateKey) (s : Int) (tape : List Nat) :
    (ring.length < 2 → Sign Hh m ring pk s tape = .error .invalidRingSize) ∧
    (2 ≤ ring.length → ((ring.length : Int) ≤ s ∨ s < 0) →
      Sign Hh m ring pk s tape = .error .indexOutOfRange) ∧
    (2 ≤ ring.length → 0 ≤ s → s < (ring.length : Int) →
      (ring.getD s.toNat dPK).addr ≠ pk.pub.addr →
      Sign Hh m ring pk s tape = .error .signerMismatch) := by
  refine ⟨?_, ?_, ?_⟩
  · intro h
    simp only [Sign]
    rw [if_pos h]
  · intro h2 hc
    simp only [Sign]
    rw [if_neg (by omega), if_pos hc]
  · intro h2 h0 hlt haddr
    simp only [Sign]
    rw [if_neg (by omega), if_neg (by omega), if_pos haddr]

/-- Closed witness for C6: the three error paths at concrete inputs. -/
theorem sign_validation_order_witness :
    Sign H0 m0 [] pkS 0 [] = .error .invalidRingSize ∧
    Sign H0 m0 ring0 pkS 5 [] = .error .indexOutOfRange ∧
    Sign H0 m0 ringClone pkS 1 tape0 = .error .signerMismatch :=
  ⟨(sign_validation_order H0 m0 [] pkS 0 []).1 (by decide),
   (sign_validation_order H0 m0 ring0 pkS 5 []).2.1 (by decide) (by decide),
   (sign_validation_order H0 m0 ringClone pkS 1 tape0).2.2 (by decide) (by decide)
     (by decide) (by decide)⟩

/-- Claim C7 (amended): whenever the secure random key generation fails
(the tape has fewer than `size - 1` values) and `0 ≤ signerIndex < size`
with `size ≥ 2`, `GenNewKeyRing` returns `nil` — a bare nil slice, not an
error value; with `signerIndex ≥ size` it panics instead. -/
theorem gen_ring_random_failure (cv : Curve) (size : Nat) (pk : PrivateKey)
    (s a : Nat) (tape : List Nat) (h2 : 2 ≤ size) (hs : s < size)
    (hfail : tape.length < size - 1) :
    GenNewKeyRing cv size pk s (a, tape) = .ret none := by
  simp only [GenNewKeyRing]
  rw [if_pos hs]
  exact genLoop_none cv size s (size - 1) 1 _ a tape hfail

/-- Closed witness for C7 (amended): exhausted source, valid index. -/
theorem gen_ring_random_failure_witness :
    GenNewKeyRing cA 2 pkS 0 (10, []) = .ret none :=
  gen_ring_random_failure cA 2 pkS 0 10 [] (by decide) (by decide) (by decide)

/-- Counterexample to C7 as stated ("for any requested size and signer
index"): with `signerIndex = 5 ≥ size = 2` and an exhausted random
source, `GenNewKeyRing` panics on the out-of-range store `ring[s]` before
ever consulting the random source — no error value is produced. -/
theorem gen_ring_index_crash : GenNewKeyRing cA 2 pkS 5 (10, []) = .crash :=
  rfl

/-- Claim C8: for `size ≥ 2`, `0 ≤ signerIndex < size`, and a random
source with at least `size - 1` values, `GenNewKeyRing` returns a ring of
exactly `size` keys, the public key object of the signer at its index,
and at every other index the public point of a freshly generated key pair
(its address `a + (t-1)` is fresh and only the public half is stored). -/
theorem gen_ring_spec (cv : Curve) (size : Nat) (pk : PrivateKey) (s a : Nat)
    (tape : List Nat) (h2 : 2 ≤ size) (hs : s < size)
    (hok : size - 1 ≤ tape.length) :
    ∃ R, GenNewKeyRing cv size pk s (a, tape) = .ret (some R) ∧
      R.length = size ∧ R.getD s none = some pk.pub ∧
      (∀ j, j < size → j ≠ s →
        ∃ t, 1 ≤ t ∧ t < size ∧ j = (t + s) % size ∧
          R.getD j none =
            some (pubMk cv (a + (t - 1)) (tape.getD (t - 1) 0 % cv.N))) := by
  simp only [GenNewKeyRing]
  rw [if_pos hs]
  obtain ⟨R, hR, hRlen, frameR, covR⟩ :=
    genLoop_spec cv size s hs (size - 1) 1
      ((List.replicate size (none : Option PublicKey)).set s (some pk.pub))
      a tape (by omega) (Nat.le_refl 1)
      (by rw [List.length_set, List.length_replicate]) hok
  refine ⟨R, hR, hRlen, ?_, ?_⟩
  · have hnc : ∀ t, 1 ≤ t → t < size → s ≠ (t + s) % size := by
      intro t ht htn he
      have he2 : (s + 0) % size = (s + t) % size := by
        rw [Nat.add_zero, Nat.mod_eq_of_lt hs, Nat.add_comm s t]
        exact he
      exact shift_mod_ne_le size s 0 t hs (by omega) (by omega) (by omega)
        (by omega) (by omega) he2
    have h := frameR s hnc
    rw [h, getD_set_self _ _ _ _ (by rw [List.length_replicate]; exact hs)]
  · intro j hj hjs
    have hsz : 0 < size := by omega
    refine ⟨(j + size - s) % size, ?_, Nat.mod_lt _ hsz, ?_, ?_⟩
    · rcases Nat.eq_zero_or_pos ((j + size - s) % size) with h0 | h0
      · exfalso
        have h1 : ((j + size - s) % size + s) % size = j := by
          rw [Nat.mod_add_mod]
          have hx : j + size - s + s = j + size := by omega
          rw [hx, Nat.add_mod_right, Nat.mod_eq_of_lt hj]
        rw [h0, Nat.zero_add, Nat.mod_eq_of_lt hs] at h1
        exact hjs h1.symm
      · exact h0
    · rw [Nat.mod_add_mod]
      have hx : j + size - s + s = j + size := by omega
      rw [hx, Nat.add_mod_right, Nat.mod_eq_of_lt hj]
    · have h1 : ((j + size - s) % size + s) % size = j := by
        rw [Nat.mod_add_mod]
        have hx : j + size - s + s = j + size := by omega
        rw [hx, Nat.add_mod_right, Nat.mod_eq_of_lt hj]
      have ht1 : 1 ≤ (j + size - s) % size := by
        rcases Nat.eq_zero_or_pos ((j + size - s) % size) with h0 | h0
        · exfalso
          rw [h0, Nat.zero_add, Nat.mod_eq_of_lt hs] at h1
          exact hjs h1.symm
        · exact h0
      have hc := covR ((j + size - s) % size) ht1 (Nat.mod_lt _ hsz)
      rw [h1] at hc
      exact hc

/-- Closed witness for C8 at a concrete size-2 ring build. -/
theorem gen_ring_spec_witness :
    ∃ R, GenNewKeyRing cA 2 pkS 0 (10, [4]) = .ret (some R) ∧
      R.length = 2 ∧ R.getD 0 none = some pkS.pub ∧
      (∀ j, j < 2 → j ≠ 0 →
        ∃ t, 1 ≤ t ∧ t < 2 ∧ j = (t + 0) % 2 ∧
          R.getD j none =
            some (pubMk cA (10 + (t - 1)) ([4].getD (t - 1) 0 % cA.N))) :=
  gen_ring_spec cA 2 pkS 0 10 [4] (by decide) (by decide) (by decide)

/-- Claim C9: a successful `Sign` emits a structurally sound signature:
`len(responses) = len(ring) = ringSize`, every response populated, the
message field equal to the input message, and the ring field equal to the
input ring. -/
theorem sign_output_structural (Hh : List Nat → Nat) (m : List Nat)
    (ring : List PublicKey) (pk : PrivateKey) (s : Int) (tape : List Nat)
    (sig : RingSign) (hok : Sign Hh m ring pk s tape = .ok sig) :
    sig.S.length = sig.Ring.length ∧ sig.Size = sig.Ring.length ∧
    sig.M = m ∧ sig.Ring = ring ∧
    (∀ j, j < sig.Size → (sig.S.getD j none).isSome = true) := by
  obtain ⟨hn2, hSize, hM, hRing, hSlen, _hCurve, cmap, hC, hchain⟩ :=
    sign_ok_master Hh m ring pk s tape sig hok
  refine ⟨by rw [hRing]; exact hSlen, by rw [hRing]; exact hSize, hM, hRing, ?_⟩
  intro j hj
  rw [hSize] at hj
  obtain ⟨si, hsi, _⟩ := hchain j hj
  rw [hsi]
  rfl

/-- Closed witness for C9 at a concrete successful signing run. -/
theorem sign_output_structural_witness :
    (exOk (Sign H0 m0 ring0 pkS 0 tape0) dSig).S.length =
      (exOk (Sign H0 m0 ring0 pkS 0 tape0) dSig).Ring.length ∧
    (exOk (Sign H0 m0 ring0 pkS 0 tape0) dSig).Size =
      (exOk (Sign H0 m0 ring0 pkS 0 tape0) dSig).Ring.length ∧
    (exOk (Sign H0 m0 ring0 pkS 0 tape0) dSig).M = m0 ∧
    (exOk (Sign H0 m0 ring0 pkS 0 tape0) dSig).Ring = ring0 ∧
    (∀ j, j < (exOk (Sign H0 m0 ring0 pkS 0 tape0) dSig).Size →
      ((exOk (Sign H0 m0 ring0 pkS 0 tape0) dSig).S.getD j none).isSome = true) :=
  sign_output_structural H0 m0 ring0 pkS 0 tape0
    (exOk (Sign H0 m0 ring0 pkS 0 tape0) dSig) rfl

/-- Claim C10: the curve-descriptor field of a signature does not
influence verification — two signatures agreeing on message, size,
initial challenge, responses, and ring verify identically whatever their
`Curve` fields (the curve is taken from the first ring key). -/
theorem verify_ignores_curve (Hh : List Nat → Nat) (s1 s2 : RingSign)
    (hM : s1.M = s2.M) (hSize : s1.Size = s2.Size) (hC : s1.C = s2.C)
    (hS : s1.S = s2.S) (hRing : s1.Ring = s2.Ring) :
    Verify Hh s1 = Verify Hh s2 := by
  cases s1
  cases s2
  simp only at hM hSize hC hS hRing
  subst hM
  subst hSize
  subst hC
  subst hS
  subst hRing
  rfl

/-- Closed witness for C10: two concrete signatures differing only in the
curve descriptor verify identically. -/
theorem verify_ignores_curve_witness : Verify H0 sigW10a = Verify H0 sigW10b :=
  verify_ignores_curve H0 sigW10a sigW10b rfl rfl rfl rfl rfl
